import Mathlib

/-!
Verification of the `long-term-news-llm-rag` pipeline.

This file shallowly embeds the data-shaping logic of the repository's two
core scripts:

* `scripts/02_get_content_data_flattened.py` — feed-entry parsing, LLM
  extraction with retry, code-fence stripping, and the
  `growth` → `growth_last_day` normalization applied to the corpus table;
* `scripts/03_add_market_stats.py` — per-ticker return computation over a
  price history (pandas `get_indexer(method='ffill')` lookup), derivation of
  the per-(end_date, ticker, type) market-metrics table, and the left join of
  those metrics back onto the corpus together with the column-schema gate
  that guards persistence.

DataFrames are modelled as lists of records; null cells are `Option.none`;
machine floats are modelled as rationals (the scripts' arithmetic is exact
field arithmetic on prices and percentages).  The spec's column names
`benchmark_daily_return` / `benchmark_weekly_return` are the code's
`market_daily_return` / `market_weekly_return`; the embedding keeps the
code's names.
-/

/-! ## Script 02: corpus construction (`parse_feed_entries` tail, lines 300-306)

One extracted JSON object is a `RawItem`.  In the pandas model, the `growth`
column of `pd.DataFrame(all_content)` exists iff at least one item dict has a
`growth` key; a row whose dict lacks the key gets a null (NaN) cell, and a
row whose dict maps the key to JSON null also gets a null cell.  `hasGrowth`
records key presence, `growth` the (possibly null) numeric value. -/

structure RawItem where
  itemType : String
  hasGrowth : Bool
  growth : Option ℚ
  link : String
deriving DecidableEq

def defaultRawItem : RawItem := ⟨"", false, none, ""⟩

/-- The value of the `growth` cell of a row in `pd.DataFrame(all_content)`:
null when the dict has no `growth` key, otherwise the dict's value. -/
def growthCell (it : RawItem) : Option ℚ :=
  if it.hasGrowth then it.growth else none

/-- The slice of the persisted corpus table that the growth normalization
touches: presence of the `growth` and `growth_last_day` columns and the
cells of the `growth_last_day` column (in row order). -/
structure CorpusTable where
  hasGrowthCol : Bool
  hasGrowthLastDayCol : Bool
  growthLastDay : List (Option ℚ)
deriving DecidableEq

/-- Lines 300-306 of `02_get_content_data_flattened.py`:
`df = pd.DataFrame(all_content)`; then, only when the `growth` column exists,
`df['growth_last_day'] = df['growth'].apply(lambda x: x/100 if pd.notnull(x) else x)`
and `df = df.drop('growth', axis=1)`.  When no item carries a `growth` key
the DataFrame never has a `growth` column and neither column is created. -/
def buildCorpus (items : List RawItem) : CorpusTable :=
  if items.any (fun it => it.hasGrowth) then
    { hasGrowthCol := false
      hasGrowthLastDayCol := true
      growthLastDay := items.map (fun it => (growthCell it).map (fun x => x / 100)) }
  else
    { hasGrowthCol := false
      hasGrowthLastDayCol := false
      growthLastDay := [] }

theorem growthLastDay_cell (items : List RawItem)
    (hex : items.any (fun it => it.hasGrowth) = true)
    (i : ℕ) (hi : i < items.length) :
    (buildCorpus items).growthLastDay.getD i none
      = (growthCell (items.getD i defaultRawItem)).map (fun x => x / 100) := by
  simp only [buildCorpus, hex, if_pos]
  rw [List.getD_eq_getElem?_getD, List.getD_eq_getElem?_getD,
    List.getElem?_map, List.getElem?_eq_getElem hi]
  simp

/-- Claim C1: for every extracted record whose raw extraction includes a
numeric `growth` field, the stored `growth_last_day` equals the extracted
`growth` divided by 100, the original `growth` column is removed from the
corpus, and records with a null growth keep a null `growth_last_day`. -/
theorem c1_growth_normalization (items : List RawItem)
    (hex : items.any (fun it => it.hasGrowth) = true) :
    (buildCorpus items).hasGrowthCol = false ∧
    (buildCorpus items).hasGrowthLastDayCol = true ∧
    (∀ i, i < items.length → ∀ g : ℚ,
      growthCell (items.getD i defaultRawItem) = some g →
      (buildCorpus items).growthLastDay.getD i none = some (g / 100)) ∧
    (∀ i, i < items.length →
      growthCell (items.getD i defaultRawItem) = none →
      (buildCorpus items).growthLastDay.getD i none = none) := by
  refine ⟨by simp [buildCorpus, hex], by simp [buildCorpus, hex], ?_, ?_⟩
  · intro i hi g hg
    rw [growthLastDay_cell items hex i hi, hg]
    rfl
  · intro i hi hg
    rw [growthLastDay_cell items hex i hi, hg]
    rfl

def c1WitnessItems : List RawItem :=
  [⟨"individual", true, some (617 / 50), "link1"⟩,
   ⟨"market_day", false, none, "link1"⟩]

/-- Witness for C1: an extracted `growth` of 12.34 is stored as 0.1234 in
`growth_last_day`, the market-summary row keeps a null cell, and the `growth`
column is gone. -/
theorem c1_growth_normalization_witness :
    (buildCorpus c1WitnessItems).hasGrowthCol = false ∧
    (buildCorpus c1WitnessItems).growthLastDay.getD 0 none = some (617 / 5000) ∧
    (buildCorpus c1WitnessItems).growthLastDay.getD 1 none = none := by
  have h := c1_growth_normalization c1WitnessItems (by decide)
  refine ⟨h.1, ?_, ?_⟩
  · have := h.2.2.1 0 (by decide) (617 / 50) rfl
    rw [this]
    norm_num
  · exact h.2.2.2 1 (by decide) (by decide)

/-- Claim C10: if no extracted record carries a `growth` field, the persisted
corpus table contains no `growth_last_day` column at all — rather than a
column of nulls — since the normalization and column creation are applied
only when a `growth` column is present. -/
theorem c10_no_growth_column (items : List RawItem)
    (h : ∀ it ∈ items, it.hasGrowth = false) :
    (buildCorpus items).hasGrowthLastDayCol = false ∧
    (buildCorpus items).hasGrowthCol = false := by
  have hany : items.any (fun it => it.hasGrowth) = false := by
    simp only [List.any_eq_false]
    intro it hit
    simp [h it hit]
  constructor <;> simp [buildCorpus, hany]

/-- Witness for C10: a corpus made only of market-wide summaries has no
`growth_last_day` column. -/
theorem c10_no_growth_column_witness :
    (buildCorpus [⟨"market_day", false, none, "l"⟩,
                  ⟨"market_week", false, none, "l"⟩]).hasGrowthLastDayCol = false := by
  exact (c10_no_growth_column _ (by decide)).1

/-! ## Script 02: LLM call with retry (`llm`, lines 26-27 and 39-56)

The external chat call is an oracle from the attempt number to either a
response string (`some`) or an exception (`none`).  `llm` mirrors the
`for attempt in range(MAX_RETRIES)` loop: the first successful attempt's
response is returned; after `MAX_RETRIES` failed attempts the function
returns `None`.  The `RETRY_DELAY`-second sleep between attempts is real
time and is represented only by the constant. -/

def MAX_RETRIES : ℕ := 3

def RETRY_DELAY : ℕ := 5

def llmTry (oracle : ℕ → Option String) : ℕ → ℕ → Option String
  | 0, _ => none
  | fuel + 1, attempt =>
    match oracle attempt with
    | some r => some r
    | none => llmTry oracle fuel (attempt + 1)

def llm (oracle : ℕ → Option String) : Option String :=
  llmTry oracle MAX_RETRIES 0

/-! ## Script 02: code-fence stripping (line 285)

`json_str.replace("```json", "").replace("```", "")` — Python's `str.replace`
replaces every non-overlapping occurrence, scanning left to right.  Strings
are modelled through their character lists. -/

def listStartsWith : List Char → List Char → Bool
  | [], _ => true
  | _ :: _, [] => false
  | p :: ps, x :: xs => p = x && listStartsWith ps xs

/-- Fuelled scanner behind `replaceAll`; the fuel (an upper bound on the
list length) only makes the recursion structural. -/
def replaceAllFuel (pat rep : List Char) : ℕ → List Char → List Char
  | 0, l => l
  | _ + 1, [] => []
  | fuel + 1, x :: xs =>
    if listStartsWith pat (x :: xs) then
      rep ++ replaceAllFuel pat rep fuel (List.drop (pat.length - 1) xs)
    else
      x :: replaceAllFuel pat rep fuel xs

/-- Python `str.replace(pat, rep)` on character lists: replace every
non-overlapping occurrence of `pat`, scanning left to right (the scripts only
use non-empty patterns). -/
def replaceAll (pat rep l : List Char) : List Char :=
  replaceAllFuel pat rep l.length l

theorem replaceAllFuel_congr (pat rep : List Char) :
    ∀ (fuel₁ fuel₂ : ℕ) (l : List Char), l.length ≤ fuel₁ → l.length ≤ fuel₂ →
      replaceAllFuel pat rep fuel₁ l = replaceAllFuel pat rep fuel₂ l := by
  intro fuel₁
  induction fuel₁ with
  | zero =>
    intro fuel₂ l h₁ _
    have : l = [] := List.length_eq_zero.mp (Nat.le_zero.mp h₁)
    subst this
    cases fuel₂ <;> rfl
  | succ f ih =>
    intro fuel₂ l h₁ h₂
    cases l with
    | nil => cases fuel₂ <;> rfl
    | cons x xs =>
      cases fuel₂ with
      | zero => exact absurd h₂ (by simp)
      | succ f₂ =>
        simp only [replaceAllFuel]
        by_cases hsw : listStartsWith pat (x :: xs) = true
        · rw [if_pos hsw, if_pos hsw]
          have hd : (List.drop (pat.length - 1) xs).length ≤ xs.length := by
            rw [List.length_drop]; omega
          have hx : xs.length ≤ f := by simpa using Nat.lt_succ_iff.mp (Nat.lt_of_lt_of_le (by simp) h₁)
          have hx₂ : xs.length ≤ f₂ := by simpa using Nat.lt_succ_iff.mp (Nat.lt_of_lt_of_le (by simp) h₂)
          rw [ih f₂ _ (le_trans hd hx) (le_trans hd hx₂)]
        · rw [if_neg hsw, if_neg hsw]
          have hx : xs.length ≤ f := by
            simp only [List.length_cons] at h₁; omega
          have hx₂ : xs.length ≤ f₂ := by
            simp only [List.length_cons] at h₂; omega
          rw [ih f₂ _ hx hx₂]

theorem replaceAll_cons_pos (pat rep : List Char) (x : Char) (xs : List Char)
    (h : listStartsWith pat (x :: xs) = true) :
    replaceAll pat rep (x :: xs)
      = rep ++ replaceAll pat rep (List.drop (pat.length - 1) xs) := by
  simp only [replaceAll, List.length_cons, replaceAllFuel, if_pos h]
  rw [replaceAllFuel_congr pat rep xs.length _ _ (by rw [List.length_drop]; omega) le_rfl]

theorem replaceAll_cons_neg (pat rep : List Char) (x : Char) (xs : List Char)
    (h : listStartsWith pat (x :: xs) = false) :
    replaceAll pat rep (x :: xs) = x :: replaceAll pat rep xs := by
  simp only [replaceAll, List.length_cons, replaceAllFuel, h, if_neg]
  simp

def codeFenceJson : String := "```json"

def codeFence : String := "```"

/-- Line 285: strip the two code-fence markers, `"```json"` first. -/
def stripFences (s : String) : String :=
  String.mk (replaceAll codeFence.data [] (replaceAll codeFenceJson.data [] s.data))

theorem listStartsWith_append (p rest : List Char) :
    listStartsWith p (p ++ rest) = true := by
  induction p with
  | nil => rfl
  | cons c cs ih => simpa [listStartsWith] using ih

/-- A replacement at the very front of the scanned list. -/
theorem replaceAll_head (c : Char) (cs rest : List Char) :
    replaceAll (c :: cs) [] ((c :: cs) ++ rest) = replaceAll (c :: cs) [] rest := by
  rw [List.cons_append, replaceAll_cons_pos (c :: cs) [] c (cs ++ rest)
    (by simpa using listStartsWith_append (c :: cs) rest)]
  simp

/-- Scanning passes unchanged over a segment that lacks the pattern's first
character. -/
theorem replaceAll_append_of_head_not_mem (c : Char) (cs rep p q : List Char)
    (hp : c ∉ p) :
    replaceAll (c :: cs) rep (p ++ q) = p ++ replaceAll (c :: cs) rep q := by
  induction p with
  | nil => simp
  | cons x xs ih =>
    have hxc : ¬(c = x) := fun h => hp (h ▸ List.mem_cons_self x xs)
    have hxs : c ∉ xs := fun h => hp (List.mem_cons_of_mem x h)
    have hsw : listStartsWith (c :: cs) (x :: (xs ++ q)) = false := by
      simp [listStartsWith, hxc]
    rw [List.cons_append, replaceAll_cons_neg _ _ _ _ hsw, ih hxs]
    rfl

theorem replaceAll_of_head_not_mem (c : Char) (cs rep p : List Char) (hp : c ∉ p) :
    replaceAll (c :: cs) rep p = p := by
  have := replaceAll_append_of_head_not_mem c cs rep p [] hp
  simpa [replaceAll, replaceAllFuel] using this

/-- Stripping a fenced payload that contains no backtick recovers the payload:
the first `replace` removes the opening `"```json"`, the second removes the
closing `"```"`. -/
theorem stripFences_fenced (p : List Char) (hp : '`' ∉ p) :
    stripFences (String.mk (codeFenceJson.data ++ p ++ codeFence.data)) = String.mk p := by
  have hjson : codeFenceJson.data = '`' :: ['`', '`', 'j', 's', 'o', 'n'] := rfl
  have hfence : codeFence.data = '`' :: ['`', '`'] := rfl
  have hnomatch : replaceAll codeFenceJson.data [] codeFence.data = codeFence.data := by
    decide
  have h1 : replaceAll codeFenceJson.data [] (codeFenceJson.data ++ p ++ codeFence.data)
      = p ++ codeFence.data := by
    calc replaceAll codeFenceJson.data [] (codeFenceJson.data ++ p ++ codeFence.data)
        = replaceAll codeFenceJson.data [] (codeFenceJson.data ++ (p ++ codeFence.data)) := by
          rw [List.append_assoc]
      _ = replaceAll codeFenceJson.data [] (p ++ codeFence.data) := by
          rw [hjson]; exact replaceAll_head _ _ _
      _ = p ++ replaceAll codeFenceJson.data [] codeFence.data := by
          rw [hjson]
          exact replaceAll_append_of_head_not_mem '`' _ [] p codeFence.data hp
      _ = p ++ codeFence.data := by rw [hnomatch]
  have h2 : replaceAll codeFence.data [] (p ++ codeFence.data) = p := by
    calc replaceAll codeFence.data [] (p ++ codeFence.data)
        = p ++ replaceAll codeFence.data [] codeFence.data := by
          rw [hfence]
          exact replaceAll_append_of_head_not_mem '`' _ [] p codeFence.data hp
      _ = p := by
          have : replaceAll codeFence.data [] codeFence.data = [] := by decide
          rw [this, List.append_nil]
  show String.mk (replaceAll codeFence.data []
    (replaceAll codeFenceJson.data [] (codeFenceJson.data ++ p ++ codeFence.data))) = String.mk p
  rw [h1, h2]

/-! ## Script 02: per-entry record extraction (lines 253-294)

Per entry: when the retried call returned `None` the entry is skipped
(`continue`); otherwise the fences are stripped and the JSON decoded.  JSON
decoding (and the `"content" in data` check) is an oracle
`decode : String → Option (List RawItem)`; decode failure (`except` branch)
skips the entry.  On success every item is tagged with the entry's link and
appended to `all_content`. -/

def entryRecords (decode : String → Option (List RawItem))
    (resp : Option String) (link : String) : List RawItem :=
  match resp with
  | none => []
  | some s =>
    match decode (stripFences s) with
    | none => []
    | some items => items.map (fun it => { it with link := link })

/-- The accumulation of `all_content` over the entry loop; each entry is a
pair of its (already retried) extraction response and its link. -/
def processEntries (decode : String → Option (List RawItem)) :
    List (Option String × String) → List RawItem
  | [] => []
  | e :: rest => entryRecords decode e.1 e.2 ++ processEntries decode rest

theorem processEntries_append (decode : String → Option (List RawItem))
    (l₁ l₂ : List (Option String × String)) :
    processEntries decode (l₁ ++ l₂) = processEntries decode l₁ ++ processEntries decode l₂ := by
  induction l₁ with
  | nil => rfl
  | cons e rest ih => simp [processEntries, ih]

/-- Claim C8: the external extraction call is retried up to a fixed bound;
code-fence markers are stripped before JSON parsing, so a fenced but
otherwise valid JSON response parses successfully (stripping a fenced
backtick-free payload returns exactly the payload, which then decodes as it
would unfenced); and on capability failure or JSON-decode failure the entry
contributes zero records while processing continues with the remaining
entries. -/
theorem c8_retry_strip_continue :
    (∀ oracle : ℕ → Option String,
      (∀ i, i < MAX_RETRIES → oracle i = none) → llm oracle = none) ∧
    (∀ (oracle : ℕ → Option String) (k : ℕ) (r : String),
      k < MAX_RETRIES → (∀ i, i < k → oracle i = none) → oracle k = some r →
      llm oracle = some r) ∧
    (∀ p : List Char, '`' ∉ p →
      stripFences (String.mk (codeFenceJson.data ++ p ++ codeFence.data)) = String.mk p) ∧
    (∀ (decode : String → Option (List RawItem))
       (pre post : List (Option String × String)) (resp : Option String) (link : String),
      (resp = none ∨ ∃ s, resp = some s ∧ decode (stripFences s) = none) →
      entryRecords decode resp link = [] ∧
      processEntries decode (pre ++ (resp, link) :: post)
        = processEntries decode pre ++ processEntries decode post) := by
  refine ⟨?_, ?_, stripFences_fenced, ?_⟩
  · intro oracle h
    have h0 := h 0 (by decide)
    have h1 := h 1 (by decide)
    have h2 := h 2 (by decide)
    simp [llm, MAX_RETRIES, llmTry, h0, h1, h2]
  · intro oracle k r hk hprev hk'
    have hk3 : k < 3 := hk
    interval_cases k
    · simp [llm, MAX_RETRIES, llmTry, hk']
    · have h0 := hprev 0 (by decide)
      simp [llm, MAX_RETRIES, llmTry, h0, hk']
    · have h0 := hprev 0 (by decide)
      have h1 := hprev 1 (by decide)
      simp [llm, MAX_RETRIES, llmTry, h0, h1, hk']
  · intro decode pre post resp link hfail
    have hzero : entryRecords decode resp link = [] := by
      rcases hfail with h | ⟨s, hs, hdec⟩
      · rw [h]; rfl
      · rw [hs]; simp [entryRecords, hdec]
    refine ⟨hzero, ?_⟩
    rw [processEntries_append]
    simp [processEntries, hzero]

/-- Witness for C8: an oracle that throws twice and succeeds on the third
attempt yields that response; a concretely fenced JSON payload is stripped
exactly; a failing entry between two succeeding ones contributes nothing
while its neighbours' records survive. -/
theorem c8_retry_strip_continue_witness :
    llm (fun i => if i = 2 then some "ok" else none) = some "ok" ∧
    stripFences "```json[1, 2]```" = "[1, 2]" ∧
    processEntries (fun _ => none) [(some "x", "l1"), (none, "l2")] = [] := by
  refine ⟨?_, ?_, ?_⟩
  · exact c8_retry_strip_continue.2.1 (fun i => if i = 2 then some "ok" else none) 2 "ok"
      (by decide) (by intro i hi; interval_cases i <;> rfl) rfl
  · have h := c8_retry_strip_continue.2.2.1 "[1, 2]".data (by decide)
    exact h
  · have h := c8_retry_strip_continue.2.2.2 (fun _ => none) [(some "x", "l1")] []
      none "l2" (Or.inl rfl)
    rw [show [(some "x", "l1"), (none, "l2")] = [(some "x", "l1")] ++ (none, "l2") :: [] from rfl,
      h.2]
    simp [processEntries, entryRecords]

/-! ## Script 02: entry dating and `last` mode (lines 127-175)

Each feed entry exposes up to three content fields; the first present wins
(`turbo_content`, then `content`, then `description`).  A date is extracted
from the content by searching for one of the two textual templates
`"End date for the articles: YYYY-MM-DD"` (tried first) and
`"before YYYY-MM-DD"`.  Dated entries are sorted by date descending
(`all_entries_data.sort(key=lambda x: x[1], reverse=True)`) and `last` mode
takes the head of the sorted list.  Date strings are compared with Python's
lexicographic string order, which on zero-padded ISO dates is chronological
order; Lean's `String` order is the same character-wise lexicographic
order. -/

structure FeedEntry where
  turbo_content : Option String
  content : Option String
  description : Option String
  link : String
deriving DecidableEq

/-- First-present-wins content lookup (lines 129-136). -/
def entryText (e : FeedEntry) : Option String :=
  match e.turbo_content with
  | some c => some c
  | none =>
    match e.content with
    | some c => some c
    | none => e.description

/-- `\d{4}-\d{2}-\d{2}` matched against the head of the character list;
returns the ten matched characters. -/
def dateAt (cs : List Char) : Option String :=
  match cs with
  | c1 :: c2 :: c3 :: c4 :: c5 :: c6 :: c7 :: c8 :: c9 :: c10 :: _ =>
    if c1.isDigit && c2.isDigit && c3.isDigit && c4.isDigit && c5 = '-'
        && c6.isDigit && c7.isDigit && c8 = '-' && c9.isDigit && c10.isDigit then
      some (String.mk [c1, c2, c3, c4, c5, c6, c7, c8, c9, c10])
    else
      none
  | _ => none

/-- `re.search(lit + r'(\d{4}-\d{2}-\d{2})', content)`: scan left to right for
the literal prefix followed by a date and return the captured date. -/
def findPat (lit : List Char) : List Char → Option String
  | [] => none
  | c :: cs =>
    match (if listStartsWith lit (c :: cs) then dateAt (List.drop lit.length (c :: cs)) else none) with
    | some d => some d
    | none => findPat lit cs

def datePattern1 : String := "End date for the articles: "

def datePattern2 : String := "before "

/-- Lines 139-153: pattern 1 takes precedence over pattern 2. -/
def extractEndDate (content : String) : Option String :=
  match findPat datePattern1.data content.data with
  | some d => some d
  | none => findPat datePattern2.data content.data

/-- Lines 128-157: the `(entry, end_date)` pairs collected before sorting, in
feed order; entries with falsy (absent or empty) content or no embedded date
are skipped. -/
def datedEntries (feed : List FeedEntry) : List (FeedEntry × String) :=
  feed.filterMap (fun e =>
    match entryText e with
    | none => none
    | some c =>
      if c = "" then none
      else (extractEndDate c).map (fun d => (e, d)))

/-- Python's `<` on strings: lexicographic comparison of code points.  Lean's
`String` order is the same relation, but this executable form is used so the
sort and its witnesses evaluate inside the kernel. -/
def charListLt : List Char → List Char → Bool
  | [], [] => false
  | [], _ :: _ => true
  | _ :: _, [] => false
  | a :: as, b :: bs => if a < b then true else if b < a then false else charListLt as bs

def pyStrLt (a b : String) : Bool :=
  charListLt a.data b.data

theorem charListLt_cons_self (c : Char) (as bs : List Char) :
    charListLt (c :: as) (c :: bs) = charListLt as bs := by
  show (if c < c then true else if c < c then false else charListLt as bs) = charListLt as bs
  rw [if_neg (lt_irrefl c), if_neg (lt_irrefl c)]

theorem charListLt_irrefl (a : List Char) : charListLt a a = false := by
  induction a with
  | nil => rfl
  | cons x xs ih => rw [charListLt_cons_self, ih]

theorem charListLt_trans (a : List Char) :
    ∀ b c : List Char, charListLt a b = true → charListLt b c = true →
      charListLt a c = true := by
  induction a with
  | nil =>
    intro b c hab hbc
    cases b with
    | nil => exact absurd hab (by simp [charListLt])
    | cons y bs =>
      cases c with
      | nil => exact absurd hbc (by simp [charListLt])
      | cons z cs => rfl
  | cons x xs ih =>
    intro b c hab hbc
    cases b with
    | nil => exact absurd hab (by simp [charListLt])
    | cons y bs =>
      cases c with
      | nil => exact absurd hbc (by simp [charListLt])
      | cons z cs =>
        rcases lt_trichotomy x y with hxy | hxy | hxy
        · rcases lt_trichotomy y z with hyz | hyz | hyz
          · simp [charListLt, lt_trans hxy hyz]
          · subst hyz
            simp [charListLt, hxy]
          · simp only [charListLt, if_neg (asymm hyz), if_pos hyz] at hbc
            exact absurd hbc Bool.false_ne_true
        · subst hxy
          rw [charListLt_cons_self] at hab
          rcases lt_trichotomy x z with hyz | hyz | hyz
          · simp [charListLt, hyz]
          · subst hyz
            rw [charListLt_cons_self] at hbc ⊢
            exact ih bs cs hab hbc
          · simp only [charListLt, if_neg (asymm hyz), if_pos hyz] at hbc
            exact absurd hbc Bool.false_ne_true
        · simp only [charListLt, if_neg (asymm hxy), if_pos hxy] at hab
          exact absurd hab Bool.false_ne_true

theorem charListLt_connected (a : List Char) :
    ∀ b : List Char, charListLt a b = false → charListLt b a = false → a = b := by
  induction a with
  | nil =>
    intro b hab _
    cases b with
    | nil => rfl
    | cons y bs => exact absurd hab (by simp [charListLt])
  | cons x xs ih =>
    intro b hab hba
    cases b with
    | nil => exact absurd hba (by simp [charListLt])
    | cons y bs =>
      rcases lt_trichotomy x y with hxy | hxy | hxy
      · simp [charListLt, hxy] at hab
      · subst hxy
        rw [charListLt_cons_self] at hab hba
        rw [ih bs hab hba]
      · simp [charListLt, hxy] at hba

/-- Stable insertion step of the descending-by-date sort. -/
def insertByDateDesc (p : FeedEntry × String) :
    List (FeedEntry × String) → List (FeedEntry × String)
  | [] => [p]
  | q :: rest => if pyStrLt q.2 p.2 then p :: q :: rest else q :: insertByDateDesc p rest

/-- Line 160: `all_entries_data.sort(key=lambda x: x[1], reverse=True)` — a
stable sort by date (Python string comparison), newest first. -/
def sortByDateDesc : List (FeedEntry × String) → List (FeedEntry × String)
  | [] => []
  | p :: rest => insertByDateDesc p (sortByDateDesc rest)

/-- Lines 166-169: in `last` mode the first entry of the sorted list is the
only one processed (when no entry carries a date the later `all`-style branch
processes the empty dated list). -/
def lastModeEntries (feed : List FeedEntry) : List FeedEntry :=
  match sortByDateDesc (datedEntries feed) with
  | [] => []
  | p :: _ => [p.1]

/-- The head of the descending sort is an element of the input and no input
element has a strictly later date. -/
theorem sortByDateDesc_head_max (l : List (FeedEntry × String)) (hne : l ≠ []) :
    ∃ p t, sortByDateDesc l = p :: t ∧ p ∈ l ∧
      ∀ q ∈ l, pyStrLt p.2 q.2 = false := by
  induction l with
  | nil => exact absurd rfl hne
  | cons x xs ih =>
    cases xs with
    | nil =>
      refine ⟨x, [], rfl, by simp, ?_⟩
      intro q hq
      simp only [List.mem_singleton] at hq
      subst hq
      exact charListLt_irrefl _
    | cons y ys =>
      obtain ⟨p, t, hsort, hmem, hmax⟩ := ih (by simp)
      by_cases hcmp : pyStrLt p.2 x.2 = true
      · refine ⟨x, p :: t, ?_, by simp, ?_⟩
        · show insertByDateDesc x (sortByDateDesc (y :: ys)) = x :: p :: t
          rw [hsort]
          simp [insertByDateDesc, hcmp]
        · intro q hq
          rcases List.mem_cons.mp hq with h | h
          · subst h
            exact charListLt_irrefl _
          · by_contra hxq
            have hxq' : pyStrLt x.2 q.2 = true := by
              revert hxq
              cases pyStrLt x.2 q.2 <;> simp
            have : pyStrLt p.2 q.2 = true :=
              charListLt_trans _ _ _ hcmp hxq'
            rw [hmax q h] at this
            exact Bool.false_ne_true this
      · have hcmp' : pyStrLt p.2 x.2 = false := by
          revert hcmp
          cases pyStrLt p.2 x.2 <;> simp
        refine ⟨p, insertByDateDesc x t, ?_, List.mem_cons_of_mem x hmem, ?_⟩
        · show insertByDateDesc x (sortByDateDesc (y :: ys)) = p :: insertByDateDesc x t
          rw [hsort]
          simp [insertByDateDesc, hcmp']
        · intro q hq
          rcases List.mem_cons.mp hq with h | h
          · subst h
            exact hcmp'
          · exact hmax q h

/-- Claim C6: in `last` mode, for any feed whose dated entries have pairwise
distinct embedded end-dates (parsed from the two known date templates),
exactly the entry with the maximal embedded end-date is selected, regardless
of the feed's native entry order, because entries are sorted by descending
embedded end-date before mode filtering. -/
theorem c6_last_mode_selects_max (feed : List FeedEntry) (e : FeedEntry) (d : String)
    (hmem : (e, d) ∈ datedEntries feed)
    (hmax : ∀ p ∈ datedEntries feed, pyStrLt d p.2 = false)
    (hdist : ∀ p ∈ datedEntries feed, ∀ q ∈ datedEntries feed, p.2 = q.2 → p = q) :
    lastModeEntries feed = [e] := by
  have hne : datedEntries feed ≠ [] := fun h => by simp [h] at hmem
  obtain ⟨p, t, hsort, hpmem, hpmax⟩ := sortByDateDesc_head_max (datedEntries feed) hne
  have hdp : d.data = p.2.data :=
    charListLt_connected d.data p.2.data (hmax p hpmem) (hpmax (e, d) hmem)
  have hdd : p.2 = d := by
    cases p
    cases d
    simp only at hdp
    exact congrArg String.mk hdp.symm
  have hpe : p = (e, d) := hdist p hpmem (e, d) hmem hdd
  simp [lastModeEntries, hsort, hpe]

def c6Feed : List FeedEntry :=
  [⟨some "INDIVIDUAL NEWS SUMMARY Start date for the articles: 2024-01-01; End date for the articles: 2024-01-07 NEWS", none, none, "l1"⟩,
   ⟨none, some "MARKET NEWS SUMMARY -- i.e. 42 news summary for the last 24 hours before 2024-01-09 UTC time", none, "l2"⟩,
   ⟨none, none, some "End date for the articles: 2024-01-05 text", "l3"⟩]

/-- Witness for C6: among three dated entries arriving out of order, `last`
mode picks the `2024-01-09` market entry even though it is not first in the
feed. -/
theorem c6_last_mode_selects_max_witness :
    lastModeEntries c6Feed
      = [⟨none, some "MARKET NEWS SUMMARY -- i.e. 42 news summary for the last 24 hours before 2024-01-09 UTC time", none, "l2"⟩] := by
  refine c6_last_mode_selects_max c6Feed _ "2024-01-09" ?_ ?_ ?_
  · decide
  · decide
  · decide

/-! ## Script 03: per-date returns from a price history (lines 53-83)

A ticker's fetched history is a chronological list of `(date, close)` pairs
(dates strictly increasing in a real `yfinance` frame; the theorems only
assume monotonicity, which pandas requires for `method='ffill'`).  Dates are
days encoded as integers, closes are rationals.
`hist_index.get_indexer([date], method='ffill')[0]` returns the position of
the last index value `≤ date`, or `-1` when the date precedes the whole
series; on a sorted list that position is the length of the `≤ date` prefix
minus one. -/

def ffillIdx (hist : List (ℤ × ℚ)) (d : ℤ) : ℤ :=
  (((hist.map Prod.fst).takeWhile (fun x => decide (x ≤ d))).length : ℤ) - 1

/-- Lines 56-83 for one `(ticker, date)` pair: `None` when the `ffill` lookup
fails (the `continue`), otherwise the `(daily_return, weekly_return)` cells,
each `None` when the required prior trading day (`date_idx-1` resp.
`date_idx-5`) does not exist. -/
def dateReturns (hist : List (ℤ × ℚ)) (d : ℤ) : Option (Option ℚ × Option ℚ) :=
  let dateIdx : ℤ := ffillIdx hist d
  if dateIdx < 0 ∨ (hist.length : ℤ) ≤ dateIdx then none
  else
    let i := dateIdx.toNat
    let endPrice := (hist.getD i (0, 0)).2
    let daily : Option ℚ :=
      if 0 < dateIdx then
        some ((endPrice - (hist.getD (i - 1) (0, 0)).2) / (hist.getD (i - 1) (0, 0)).2)
      else none
    let weekly : Option ℚ :=
      if 5 ≤ dateIdx then
        some ((endPrice - (hist.getD (i - 5) (0, 0)).2) / (hist.getD (i - 5) (0, 0)).2)
      else none
    some (daily, weekly)

theorem takeWhile_length_le (p : ℤ → Bool) (l : List ℤ) :
    (l.takeWhile p).length ≤ l.length := by
  induction l with
  | nil => simp
  | cons x xs ih =>
    by_cases h : p x = true
    · simpa [List.takeWhile_cons, h] using Nat.succ_le_succ ih
    · simp [List.takeWhile_cons, h]

theorem takeWhile_getD_pred (p : ℤ → Bool) (l : List ℤ) :
    ∀ i, i < (l.takeWhile p).length → p (l.getD i 0) = true := by
  induction l with
  | nil => simp
  | cons x xs ih =>
    intro i hi
    by_cases h : p x = true
    · cases i with
      | zero => simpa using h
      | succ j =>
        simp only [List.takeWhile_cons, h, if_pos, List.length_cons] at hi
        simpa using ih j (by omega)
    · simp [List.takeWhile_cons, h] at hi

theorem takeWhile_getD_boundary (p : ℤ → Bool) (l : List ℤ) :
    (l.takeWhile p).length < l.length →
      p (l.getD (l.takeWhile p).length 0) = false := by
  induction l with
  | nil => simp
  | cons x xs ih =>
    intro hlt
    by_cases h : p x = true
    · simp only [List.takeWhile_cons, h, if_pos, List.length_cons] at hlt ⊢
      simpa using ih (by omega)
    · simp [List.takeWhile_cons, h]

theorem getD_map_fst (l : List (ℤ × ℚ)) :
    ∀ j, j < l.length → (l.map Prod.fst).getD j 0 = (l.getD j (0, 0)).1 := by
  induction l with
  | nil => simp
  | cons x xs ih =>
    intro j hj
    cases j with
    | zero => simp
    | succ k =>
      simp only [List.map_cons, List.getD_cons_succ]
      exact ih k (by simpa using Nat.lt_of_succ_lt_succ hj)

/-- Sortedness transfers `>` beyond the `takeWhile` boundary. -/
theorem sorted_getD_le (l : List ℤ) (hs : List.Sorted (· ≤ ·) l) :
    ∀ a b, a ≤ b → b < l.length → l.getD a 0 ≤ l.getD b 0 := by
  intro a b hab hb
  rcases Nat.eq_or_lt_of_le hab with h | h
  · subst h; rfl
  · have := List.pairwise_iff_get.mp hs ⟨a, by omega⟩ ⟨b, hb⟩ (by simpa using h)
    simpa [List.getD_eq_getElem?_getD, List.getElem?_eq_getElem, (by omega : a < l.length), hb,
      List.get_eq_getElem] using this

/-- Claim C3: for every (ticker, date) pair the forward-fill positional
lookup locates the price-series index at or before the date (the greatest
such index); `daily_return` is `None` when no prior trading day exists at
that index, `weekly_return` is `None` when fewer than 5 prior trading days
exist — never a value computed from a shorter window — and when enough
history exists the return equals `(P_t − P_{t−k}) / P_{t−k}` for k = 1 and
k = 5 trading days. -/
theorem c3_ffill_and_window (hist : List (ℤ × ℚ)) (d : ℤ)
    (hs : List.Sorted (· ≤ ·) (hist.map Prod.fst)) :
    (ffillIdx hist d = -1 → dateReturns hist d = none) ∧
    (∀ i : ℕ, ffillIdx hist d = (i : ℤ) →
      i < hist.length ∧
      (hist.getD i (0, 0)).1 ≤ d ∧
      (∀ j, j < hist.length → (hist.getD j (0, 0)).1 ≤ d → j ≤ i) ∧
      dateReturns hist d = some (
        (if 0 < i then
          some (((hist.getD i (0, 0)).2 - (hist.getD (i - 1) (0, 0)).2)
            / (hist.getD (i - 1) (0, 0)).2)
        else none),
        (if 5 ≤ i then
          some (((hist.getD i (0, 0)).2 - (hist.getD (i - 5) (0, 0)).2)
            / (hist.getD (i - 5) (0, 0)).2)
        else none))) := by
  constructor
  · intro hidx
    simp only [dateReturns]
    rw [hidx]
    norm_num
  · intro i hidx
    have hk : ((hist.map Prod.fst).takeWhile (fun x => decide (x ≤ d))).length = i + 1 := by
      simp only [ffillIdx] at hidx
      omega
    have hlen : i + 1 ≤ hist.length := by
      have := takeWhile_length_le (fun x => decide (x ≤ d)) (hist.map Prod.fst)
      rw [hk] at this
      simpa using this
    have hi_lt : i < hist.length := by omega
    have hat : (hist.getD i (0, 0)).1 ≤ d := by
      have := takeWhile_getD_pred (fun x => decide (x ≤ d)) (hist.map Prod.fst) i (by omega)
      rw [getD_map_fst hist i hi_lt] at this
      simpa using this
    have hmaxj : ∀ j, j < hist.length → (hist.getD j (0, 0)).1 ≤ d → j ≤ i := by
      intro j hj hjle
      by_contra hgt
      have hi1 : i + 1 < hist.length := by omega
      have hbound := takeWhile_getD_boundary (fun x => decide (x ≤ d)) (hist.map Prod.fst)
        (by simpa [hk] using hi1)
      rw [hk] at hbound
      rw [getD_map_fst hist (i + 1) hi1] at hbound
      have hb : ¬ (hist.getD (i + 1) (0, 0)).1 ≤ d := by simpa using hbound
      have hchain : (hist.getD (i + 1) (0, 0)).1 ≤ (hist.getD j (0, 0)).1 := by
        have := sorted_getD_le (hist.map Prod.fst) hs (i + 1) j (by omega) (by simpa using hj)
        rw [getD_map_fst hist (i + 1) hi1, getD_map_fst hist j hj] at this
        exact this
      exact hb (le_trans hchain hjle)
    refine ⟨hi_lt, hat, hmaxj, ?_⟩
    simp only [dateReturns]
    rw [hidx]
    have hguard : ¬ ((i : ℤ) < 0 ∨ (hist.length : ℤ) ≤ (i : ℤ)) := by
      push_neg
      constructor
      · omega
      · exact_mod_cast hi_lt
    rw [if_neg hguard]
    have htn : (i : ℤ).toNat = i := Int.toNat_ofNat i
    rw [htn]
    have h0 : ((0 : ℤ) < (i : ℤ)) = (0 < i) := by
      apply propext
      exact_mod_cast Iff.rfl
    have h5 : ((5 : ℤ) ≤ (i : ℤ)) = (5 ≤ i) := by
      apply propext
      exact_mod_cast Iff.rfl
    simp only [h0, h5]

def c3Hist : List (ℤ × ℚ) :=
  [(0, 100), (1, 102), (2, 101), (3, 103), (4, 104), (5, 105), (10, 110)]

/-- Witness for C3: on a 7-day history queried at day 10 (an off-trading
day), the lookup forward-fills to index 6, the daily return is
(110−105)/105 and the weekly return is (110−102)/102; queried before the
series starts, the pair is skipped. -/
theorem c3_ffill_and_window_witness :
    dateReturns c3Hist 10 = some (some (1 / 21), some (4 / 51)) ∧
    dateReturns c3Hist (-7) = none := by
  constructor
  · have h := ((c3_ffill_and_window c3Hist 10 (by decide)).2 6 (by decide)).2.2.2
    rw [h]
    norm_num [c3Hist, List.getD]
  · exact (c3_ffill_and_window c3Hist (-7) (by decide)).1 (by decide)

/-! ## Script 03: market-metrics derivation (lines 21-135)

The corpus rows carry the three columns `calculate_market_metrics` reads
(`end_date`, `ticker`, `type`); metric rows carry the engine's output
columns.  `df[['end_date','ticker','type']].drop_duplicates()` keeps the
first occurrence of each triple in row order (modelled by
`pdDropDuplicates`), and one metric row is computed per kept triple. -/

structure CorpusRow where
  end_date : ℤ
  ticker : String
  «type» : String
deriving DecidableEq

structure ReturnsEntry where
  ticker : String
  date : ℤ
  daily_return : Option ℚ
  weekly_return : Option ℚ
deriving DecidableEq

structure MetricRow where
  date : ℤ
  ticker : String
  weekly_return : Option ℚ
  market_daily_return : Option ℚ
  market_weekly_return : Option ℚ
  growth_above_market : Option ℚ
deriving DecidableEq

/-- Fuelled core of `pdDropDuplicates` (the fuel only makes the recursion
structural). -/
def pdDropDuplicatesFuel {α : Type} [DecidableEq α] : ℕ → List α → List α
  | 0, l => l
  | _ + 1, [] => []
  | fuel + 1, a :: l => a :: pdDropDuplicatesFuel fuel (l.filter (fun b => decide (b ≠ a)))

/-- pandas `drop_duplicates()`: keep the first occurrence of each value, in
order. -/
def pdDropDuplicates {α : Type} [DecidableEq α] (l : List α) : List α :=
  pdDropDuplicatesFuel l.length l

theorem pdDropDuplicatesFuel_congr {α : Type} [DecidableEq α] :
    ∀ (fuel₁ fuel₂ : ℕ) (l : List α), l.length ≤ fuel₁ → l.length ≤ fuel₂ →
      pdDropDuplicatesFuel fuel₁ l = pdDropDuplicatesFuel fuel₂ l := by
  intro fuel₁
  induction fuel₁ with
  | zero =>
    intro fuel₂ l h₁ _
    have : l = [] := List.length_eq_zero.mp (Nat.le_zero.mp h₁)
    subst this
    cases fuel₂ <;> rfl
  | succ f ih =>
    intro fuel₂ l h₁ h₂
    cases l with
    | nil => cases fuel₂ <;> rfl
    | cons a t =>
      cases fuel₂ with
      | zero => exact absurd h₂ (by simp)
      | succ f₂ =>
        simp only [pdDropDuplicatesFuel, List.cons.injEq, true_and]
        have hf : (t.filter (fun b => decide (b ≠ a))).length ≤ t.length :=
          List.length_filter_le _ _
        have ht₁ : t.length ≤ f := by simpa using h₁
        have ht₂ : t.length ≤ f₂ := by simpa using h₂
        exact ih f₂ _ (le_trans hf ht₁) (le_trans hf ht₂)

theorem pdDropDuplicates_cons {α : Type} [DecidableEq α] (a : α) (l : List α) :
    pdDropDuplicates (a :: l) = a :: pdDropDuplicates (l.filter (fun b => decide (b ≠ a))) := by
  simp only [pdDropDuplicates, List.length_cons, pdDropDuplicatesFuel, List.cons.injEq, true_and]
  exact pdDropDuplicatesFuel_congr _ _ _ (List.length_filter_le _ _) le_rfl

theorem mem_pdDropDuplicatesFuel {α : Type} [DecidableEq α] :
    ∀ (fuel : ℕ) (l : List α), l.length ≤ fuel →
      ∀ x, (x ∈ pdDropDuplicatesFuel fuel l ↔ x ∈ l) := by
  intro fuel
  induction fuel with
  | zero => intro l _ x; rfl
  | succ f ih =>
    intro l hl x
    cases l with
    | nil => rfl
    | cons a t =>
      have ht : t.length ≤ f := by simpa using hl
      have hft : (t.filter (fun b => decide (b ≠ a))).length ≤ f :=
        le_trans (List.length_filter_le _ _) ht
      simp only [pdDropDuplicatesFuel, List.mem_cons, ih _ hft, List.mem_filter,
        decide_eq_true_eq]
      by_cases hxa : x = a
      · simp [hxa]
      · simp [hxa]

theorem mem_pdDropDuplicates {α : Type} [DecidableEq α] (l : List α) (x : α) :
    x ∈ pdDropDuplicates l ↔ x ∈ l :=
  mem_pdDropDuplicatesFuel l.length l le_rfl x

theorem nodup_pdDropDuplicatesFuel {α : Type} [DecidableEq α] :
    ∀ (fuel : ℕ) (l : List α), l.length ≤ fuel → (pdDropDuplicatesFuel fuel l).Nodup := by
  intro fuel
  induction fuel with
  | zero =>
    intro l hl
    have : l = [] := List.length_eq_zero.mp (Nat.le_zero.mp hl)
    subst this
    exact List.nodup_nil
  | succ f ih =>
    intro l hl
    cases l with
    | nil => exact List.nodup_nil
    | cons a t =>
      have ht : t.length ≤ f := by simpa using hl
      have hft : (t.filter (fun b => decide (b ≠ a))).length ≤ f :=
        le_trans (List.length_filter_le _ _) ht
      refine List.nodup_cons.mpr ⟨?_, ih _ hft⟩
      intro hmem
      have := (mem_pdDropDuplicatesFuel f _ hft a).mp hmem
      simp [List.mem_filter] at this

theorem nodup_pdDropDuplicates {α : Type} [DecidableEq α] (l : List α) :
    (pdDropDuplicates l).Nodup :=
  nodup_pdDropDuplicatesFuel l.length l le_rfl

/-- The three-column key of `unique_combinations` (line 91). -/
def comboKey (r : CorpusRow) : ℤ × String × String :=
  (r.end_date, r.ticker, r.«type»)

/-- Lines 94-133, one iteration: derive the metric row for one
`(end_date, ticker, type)` combination.  The engine ticker is the corpus
ticker for `individual` rows and the sentinel otherwise; `Series().get(...)`
on an empty lookup yields `None`, modelled by `Option.bind` through the
`head?` of the filtered returns. -/
def rowFor (returns : List ReturnsEntry) (c : ℤ × String × String) : MetricRow :=
  let date := c.1
  let ticker := if c.2.2 = "individual" then c.2.1 else "multiple_tickers"
  let marketData := (returns.filter (fun r => decide (r.date = date ∧ r.ticker = "^GSPC"))).head?
  if ticker ≠ "multiple_tickers" then
    let tickerData := (returns.filter (fun r => decide (r.date = date ∧ r.ticker = ticker))).head?
    let weekly := tickerData.bind (fun r => r.weekly_return)
    let marketWeekly := marketData.bind (fun r => r.weekly_return)
    let gam : Option ℚ :=
      match weekly, marketWeekly with
      | some w, some mw => some (w - mw)
      | _, _ => none
    { date := date, ticker := ticker, weekly_return := weekly,
      market_daily_return := marketData.bind (fun r => r.daily_return),
      market_weekly_return := marketWeekly, growth_above_market := gam }
  else
    { date := date, ticker := ticker,
      weekly_return := marketData.bind (fun r => r.weekly_return),
      market_daily_return := marketData.bind (fun r => r.daily_return),
      market_weekly_return := marketData.bind (fun r => r.weekly_return),
      growth_above_market := none }

/-- Lines 90-135: the market-metrics table — one row per first occurrence of
each `(end_date, ticker, type)` triple of the corpus. -/
def marketMetrics (returns : List ReturnsEntry) (df : List CorpusRow) : List MetricRow :=
  (pdDropDuplicates (df.map comboKey)).map (rowFor returns)

def c5Corpus : List CorpusRow :=
  [⟨0, "multiple_tickers", "market_daily"⟩,
   ⟨0, "multiple_tickers", "market_weekly"⟩]

/-- Counterexample to C5 as stated: a daily and a weekly market-wide record
sharing an end_date are two distinct `(end_date, ticker, type)` combinations,
so the metrics table gets two rows with the same `(date, ticker)` pair
`(0, "multiple_tickers")`. -/
theorem c5_counterexample :
    ¬ ((marketMetrics [] c5Corpus).map (fun m => (m.date, m.ticker))).Nodup := by
  decide

/-- Claim C5 (amended): the `MarketReturnEngine` output contains exactly one
metrics row per unique `(end_date, ticker, type)` triple of the corpus — the
kept triples are exactly the corpus triples, without duplicates, and the
i-th metrics row is derived from the i-th kept triple.  Uniqueness per
`(date, ticker)` pair alone fails when market-wide records of different
types share an end_date. -/
theorem c5_one_row_per_triple (returns : List ReturnsEntry) (df : List CorpusRow) :
    marketMetrics returns df = (pdDropDuplicates (df.map comboKey)).map (rowFor returns) ∧
    (pdDropDuplicates (df.map comboKey)).Nodup ∧
    ∀ t, t ∈ pdDropDuplicates (df.map comboKey) ↔ t ∈ df.map comboKey :=
  ⟨rfl, nodup_pdDropDuplicates _, fun t => mem_pdDropDuplicates _ t⟩

/-- Claim C4: for an `individual` record whose ticker and the benchmark both
have a weekly return for its end_date, `growth_above_market` is the ticker's
weekly return minus the benchmark's; for market-wide (`multiple_tickers`)
rows `growth_above_market` is `None` while `weekly_return` is the
benchmark's own weekly return for that date. -/
theorem c4_growth_above_market :
    (∀ (returns : List ReturnsEntry) (d : ℤ) (t : String) (e1 e2 : ReturnsEntry) (w mw : ℚ),
      t ≠ "multiple_tickers" →
      (returns.filter (fun r => decide (r.date = d ∧ r.ticker = t))).head? = some e1 →
      e1.weekly_return = some w →
      (returns.filter (fun r => decide (r.date = d ∧ r.ticker = "^GSPC"))).head? = some e2 →
      e2.weekly_return = some mw →
      rowFor returns (d, t, "individual")
        = ⟨d, t, some w, e2.daily_return, some mw, some (w - mw)⟩) ∧
    (∀ (returns : List ReturnsEntry) (d : ℤ) (t ty : String), ty ≠ "individual" →
      (rowFor returns (d, t, ty)).growth_above_market = none ∧
      (rowFor returns (d, t, ty)).weekly_return
        = ((returns.filter (fun r => decide (r.date = d ∧ r.ticker = "^GSPC"))).head?.bind
            (fun r => r.weekly_return))) := by
  constructor
  · intro returns d t e1 e2 w mw ht h1 hw h2 hmw
    simp only [rowFor, eq_self_iff_true, if_true]
    rw [if_pos ht, h1, h2]
    simp only [Option.some_bind]
    rw [hw, hmw]
  · intro returns d t ty hty
    constructor <;>
      · simp only [rowFor, if_neg hty]
        rw [if_neg (by simp)]

def c4Returns : List ReturnsEntry :=
  [⟨"NVDA", 7, none, some (1 / 20)⟩,
   ⟨"^GSPC", 7, some (1 / 200), some (1 / 50)⟩]

/-- Witness for C4: NVDA weekly return 0.05 and benchmark weekly return 0.02
give `growth_above_market` 0.03; the market-wide row for the same date has a
`None` excess return and the benchmark's own weekly return. -/
theorem c4_growth_above_market_witness :
    rowFor c4Returns (7, "NVDA", "individual")
      = ⟨7, "NVDA", some (1 / 20), some (1 / 200), some (1 / 50), some (3 / 100)⟩ ∧
    (rowFor c4Returns (7, "multiple_tickers", "market_daily")).growth_above_market = none ∧
    (rowFor c4Returns (7, "multiple_tickers", "market_daily")).weekly_return = some (1 / 50) := by
  refine ⟨?_, ?_, ?_⟩
  · have h := c4_growth_above_market.1 c4Returns 7 "NVDA"
      ⟨"NVDA", 7, none, some (1 / 20)⟩ ⟨"^GSPC", 7, some (1 / 200), some (1 / 50)⟩
      (1 / 20) (1 / 50) (by decide) rfl rfl rfl rfl
    rw [h]
    norm_num
  · exact (c4_growth_above_market.2 c4Returns 7 "multiple_tickers" "market_daily"
      (by decide)).1
  · have h := (c4_growth_above_market.2 c4Returns 7 "multiple_tickers" "market_daily"
      (by decide)).2
    rw [h]
    rfl

/-! ## Script 03: merge and persistence gate (`main`, lines 137-226)

Schema level: the merged frame's column list.  After dropping any
pre-existing metric columns from the corpus (line 189-190), the left merge
appends the metric subset's columns — its `ticker` key collapses into the
corpus `ticker` key, its `date` key survives and is then dropped (line 199).
The model assumes the corpus has no column literally named `date` (true of
every frame the pipeline produces; with such a column pandas would suffix
the keys and the later `drop('date')` would fail). -/

def metricCols : List String :=
  ["weekly_return", "market_daily_return", "market_weekly_return", "growth_above_market"]

/-- Lines 189-190: `df.drop(columns=[col for col in columns_to_drop if col in df.columns])`. -/
def dropExistingMetricCols (cols : List String) : List String :=
  cols.filter (fun c => decide (c ∉ metricCols))

/-- Lines 182-199: columns after drop, merge and `drop('date', axis=1)`. -/
def enrichColumns (cols : List String) : List String :=
  (dropExistingMetricCols cols ++ "date" :: metricCols).filter (fun c => decide (c ≠ "date"))

/-- Lines 220-226: persist only when all four metric columns are present,
else raise `ValueError` and write nothing (`none`). -/
def mainPersist (cols : List String) : Option (List String) :=
  if metricCols.all (fun c => decide (c ∈ cols)) then some cols else none

theorem count_dropExisting_eq_zero (cols : List String) (c : String) (hc : c ∈ metricCols) :
    (dropExistingMetricCols cols).count c = 0 := by
  refine List.count_eq_zero.mpr ?_
  intro hmem
  have := List.mem_filter.mp hmem
  simp only [decide_eq_true_eq] at this
  exact this.2 hc

theorem metricCols_mem_enrich (cols : List String) (c : String) (hc : c ∈ metricCols) :
    c ∈ enrichColumns cols := by
  refine List.mem_filter.mpr ⟨List.mem_append_right _ (List.mem_cons_of_mem _ hc), ?_⟩
  fin_cases hc <;> decide

theorem mainPersist_enrichColumns (cols : List String) :
    mainPersist (enrichColumns cols) = some (enrichColumns cols) := by
  have hall : metricCols.all (fun c => decide (c ∈ enrichColumns cols)) = true := by
    refine List.all_eq_true.mpr ?_
    intro c hc
    simpa using metricCols_mem_enrich cols c hc
  simp [mainPersist, hall]

/-- Claim C2: after the metrics merge the four metric columns exist (once
each — never duplicated) on the merged table, and persistence is refused —
nothing written — whenever any of the four is absent.  The spec's
`benchmark_*` columns are the code's `market_*` columns. -/
theorem c2_metric_columns_and_gate :
    (∀ cols : List String, ∀ c ∈ metricCols, (enrichColumns cols).count c = 1) ∧
    (∀ cols : List String, mainPersist (enrichColumns cols) = some (enrichColumns cols)) ∧
    (∀ cols : List String, (∃ c ∈ metricCols, c ∉ cols) → mainPersist cols = none) := by
  refine ⟨?_, ?_, ?_⟩
  · intro cols c hc
    have hsplit : enrichColumns cols
        = (dropExistingMetricCols cols).filter (fun c => decide (c ≠ "date"))
          ++ ("date" :: metricCols).filter (fun c => decide (c ≠ "date")) := by
      simp [enrichColumns, List.filter_append]
    rw [hsplit, List.count_append]
    have h0 : ((dropExistingMetricCols cols).filter (fun c => decide (c ≠ "date"))).count c = 0 := by
      refine List.count_eq_zero.mpr ?_
      intro hmem
      have h1 := List.mem_of_mem_filter hmem
      exact List.count_eq_zero.mp (count_dropExisting_eq_zero cols c hc) h1
    rw [h0]
    fin_cases hc <;> decide
  · intro cols
    exact mainPersist_enrichColumns cols
  · intro cols ⟨c, hc, hmiss⟩
    have hall : metricCols.all (fun c => decide (c ∈ cols)) = false := by
      refine List.all_eq_false.mpr ⟨c, hc, ?_⟩
      simpa using hmiss
    simp [mainPersist, hall]

/-- Witness for C2: on the pipeline's raw corpus schema the merged schema
carries each metric column exactly once and passes the gate; a schema missing
`weekly_return` is refused. -/
theorem c2_metric_columns_and_gate_witness :
    (enrichColumns ["type", "start_date", "end_date", "ticker", "count", "text",
      "link", "growth_last_day"]).count "weekly_return" = 1 ∧
    mainPersist ["type", "end_date", "ticker"] = none := by
  constructor
  · exact c2_metric_columns_and_gate.1 _ "weekly_return" (by decide)
  · exact c2_metric_columns_and_gate.2.2 _ ⟨"weekly_return", by decide, by decide⟩

/-! ## Script 03: value-level left join (lines 193-199)

`pd.merge(df, metrics_subset, left_on=['end_date','ticker'],
right_on=['date','ticker'], how='left')`: every corpus row is paired with
every matching metric row (null metrics when none matches).  An `ERow` is a
merged row: the surviving corpus columns plus the four metric cells. -/

structure ERow where
  core : CorpusRow
  weekly_return : Option ℚ
  market_daily_return : Option ℚ
  market_weekly_return : Option ℚ
  growth_above_market : Option ℚ
deriving DecidableEq

def joinRow (metrics : List MetricRow) (r : CorpusRow) : List ERow :=
  match metrics.filter (fun m => decide (m.date = r.end_date ∧ m.ticker = r.ticker)) with
  | [] => [⟨r, none, none, none, none⟩]
  | m :: ms =>
    (m :: ms).map (fun x =>
      ⟨r, x.weekly_return, x.market_daily_return, x.market_weekly_return,
        x.growth_above_market⟩)

def leftJoin : List CorpusRow → List MetricRow → List ERow
  | [], _ => []
  | r :: rest, metrics => joinRow metrics r ++ leftJoin rest metrics

/-- Lines 188-199 as a function of an (already or not yet enriched) frame:
drop the metric columns — keeping only the corpus core — and left-join the
metrics subset back on. -/
def mergeDf (df : List ERow) (metrics : List MetricRow) : List ERow :=
  leftJoin (df.map (fun e => e.core)) metrics

/-- A raw, never-enriched corpus viewed as a mergeable frame (all metric
cells absent). -/
def ofCorpus (df : List CorpusRow) : List ERow :=
  df.map (fun r => ⟨r, none, none, none, none⟩)

theorem metrics_filter_length_le_one (metrics : List MetricRow)
    (h : (metrics.map (fun m => (m.date, m.ticker))).Nodup) (d : ℤ) (t : String) :
    (metrics.filter (fun m => decide (m.date = d ∧ m.ticker = t))).length ≤ 1 := by
  induction metrics with
  | nil => simp
  | cons a l ih =>
    rw [List.map_cons, List.nodup_cons] at h
    by_cases ha : (a.date = d ∧ a.ticker = t)
    · have hfl : l.filter (fun m => decide (m.date = d ∧ m.ticker = t)) = [] := by
        refine List.filter_eq_nil_iff.mpr ?_
        intro m hm
        simp only [decide_eq_true_eq, not_and]
        intro hd ht'
        refine h.1 ?_
        rw [show (a.date, a.ticker) = (m.date, m.ticker) from by rw [ha.1, ha.2, hd, ht']]
        exact List.mem_map_of_mem _ hm
      rw [List.filter_cons_of_pos (by simpa using ha), hfl]
      simp
    · rw [List.filter_cons_of_neg (by simpa using ha)]
      exact ih h.2

theorem leftJoin_map_core (metrics : List MetricRow)
    (h : (metrics.map (fun m => (m.date, m.ticker))).Nodup) :
    ∀ df : List CorpusRow, (leftJoin df metrics).map (fun e => e.core) = df := by
  intro df
  induction df with
  | nil => rfl
  | cons r rest ih =>
    have hlen := metrics_filter_length_le_one metrics h r.end_date r.ticker
    simp only [leftJoin, List.map_append, ih]
    suffices hj : (joinRow metrics r).map (fun e => e.core) = [r] by
      rw [hj]
      rfl
    cases hfil : metrics.filter (fun m => decide (m.date = r.end_date ∧ m.ticker = r.ticker)) with
    | nil =>
      unfold joinRow
      rw [hfil]
      simp
    | cons m ms =>
      rw [hfil] at hlen
      have hms : ms = [] := by
        simp only [List.length_cons] at hlen
        exact List.length_eq_zero.mp (by omega)
      subst hms
      unfold joinRow
      rw [hfil]
      simp

def c9Corpus : List CorpusRow :=
  [⟨0, "multiple_tickers", "market_daily"⟩,
   ⟨0, "multiple_tickers", "market_weekly"⟩]

def c9Metrics : List MetricRow := marketMetrics [] c9Corpus

/-- Counterexample to C9 as stated: with the metrics the engine itself
derives for a daily and a weekly market-wide record sharing an end_date, the
metrics table has two rows keyed `(0, "multiple_tickers")`, so the first
merge duplicates each corpus row and the second merge duplicates them again
— the two outputs differ (4 rows vs 8 rows). -/
theorem c9_counterexample :
    mergeDf (mergeDf (ofCorpus c9Corpus) c9Metrics) c9Metrics
      ≠ mergeDf (ofCorpus c9Corpus) c9Metrics := by
  decide

/-- Claim C9 (amended): the merge never accumulates duplicate or suffixed
metric columns (the merged schema is a fixed point of the schema transform),
and re-running the merge on its own output with the same metrics table
yields identical output provided the metrics table has no duplicate
`(date, ticker)` key — without that proviso the join multiplies rows, as the
counterexample shows. -/
theorem c9_merge_idempotent :
    (∀ cols : List String, enrichColumns (enrichColumns cols) = enrichColumns cols) ∧
    (∀ (df : List ERow) (metrics : List MetricRow),
      (metrics.map (fun m => (m.date, m.ticker))).Nodup →
      mergeDf (mergeDf df metrics) metrics = mergeDf df metrics) := by
  constructor
  · intro cols
    have hseg : ("date" :: metricCols).filter (fun c => decide (c ≠ "date"))
        = metricCols := by decide
    have hseg2 : metricCols.filter (fun c => decide (c ∉ metricCols)) = [] := by decide
    have hfp : ∀ l : List String,
        (l.filter (fun c => decide (c ≠ "date"))).filter (fun c => decide (c ∉ metricCols))
          = (l.filter (fun c => decide (c ∉ metricCols))).filter (fun c => decide (c ≠ "date")) := by
      intro l
      rw [List.filter_filter, List.filter_filter]
      refine List.filter_congr ?_
      intro c _
      rw [Bool.and_comm]
    have hidem : ∀ l : List String,
        ((l.filter (fun c => decide (c ∉ metricCols))).filter (fun c => decide (c ∉ metricCols)))
          = l.filter (fun c => decide (c ∉ metricCols)) := by
      intro l
      refine List.filter_eq_self.mpr ?_
      intro a ha
      exact (List.mem_filter.mp ha).2
    have hqidem : ∀ l : List String,
        ((l.filter (fun c => decide (c ≠ "date"))).filter (fun c => decide (c ≠ "date")))
          = l.filter (fun c => decide (c ≠ "date")) := by
      intro l
      refine List.filter_eq_self.mpr ?_
      intro a ha
      exact (List.mem_filter.mp ha).2
    simp only [enrichColumns, dropExistingMetricCols, List.filter_append, hseg, hseg2]
    rw [hfp, hidem, hqidem]
    simp
  · intro df metrics hnodup
    show leftJoin ((leftJoin (df.map (fun e => e.core)) metrics).map (fun e => e.core)) metrics
      = leftJoin (df.map (fun e => e.core)) metrics
    rw [leftJoin_map_core metrics hnodup]

/-- Witness for C9 (amended): with a key-unique metrics table the double
merge equals the single merge on a concrete corpus, and a concrete corpus
schema reaches a fixed point of the schema transform after one merge. -/
theorem c9_merge_idempotent_witness :
    mergeDf (mergeDf (ofCorpus [⟨0, "NVDA", "individual"⟩])
        [⟨0, "NVDA", some 1, some 2, some 3, some 4⟩])
        [⟨0, "NVDA", some 1, some 2, some 3, some 4⟩]
      = mergeDf (ofCorpus [⟨0, "NVDA", "individual"⟩])
        [⟨0, "NVDA", some 1, some 2, some 3, some 4⟩] ∧
    enrichColumns (enrichColumns ["end_date", "ticker"])
      = enrichColumns ["end_date", "ticker"] := by
  constructor
  · exact c9_merge_idempotent.2 _ _ (by decide)
  · exact c9_merge_idempotent.1 _

/-- Witness for C5 (amended): the kept triples of a corpus with a repeated
row are duplicate-free. -/
theorem c5_one_row_per_triple_witness :
    (pdDropDuplicates (([⟨0, "AAPL", "individual"⟩, ⟨0, "AAPL", "individual"⟩] :
      List CorpusRow).map comboKey)).Nodup :=
  (c5_one_row_per_triple [] _).2.1

/-! ## Script 03: the full enrichment pipeline (lines 21-47 with 137-199)

The price-history provider is an oracle `fetch` from the ticker symbol to
either a history (`some`) or an exception (`none`).  Lines 40-47 keep only
tickers whose fetch succeeded with a non-empty frame (`all_history` is a
dict, so the ticker list is de-duplicated by construction); lines 50-86
compute the returns rows per kept ticker and per unique corpus end_date;
the metric table and left join then run as modelled above. -/

def individualTickers (df : List CorpusRow) : List String :=
  pdDropDuplicates ((df.filter (fun r => decide (r.«type» = "individual"))).map
    (fun r => r.ticker))

/-- Lines 24-25: distinct `individual` tickers plus the S&P 500 benchmark. -/
def engineTickers (df : List CorpusRow) : List String :=
  individualTickers df ++ ["^GSPC"]

/-- Line 53: `df['end_date'].unique()`. -/
def corpusDates (df : List CorpusRow) : List ℤ :=
  pdDropDuplicates (df.map (fun r => r.end_date))

/-- Lines 37-47: fetch each ticker's history, skipping fetch exceptions and
empty frames. -/
def allHistory (fetch : String → Option (List (ℤ × ℚ))) (tickers : List String) :
    List (String × List (ℤ × ℚ)) :=
  (pdDropDuplicates tickers).filterMap (fun t =>
    match fetch t with
    | none => none
    | some h => if h.isEmpty then none else some (t, h))

/-- Lines 51-83 for one kept ticker: one returns row per corpus date whose
`ffill` lookup succeeds. -/
def returnsForHist (t : String) (h : List (ℤ × ℚ)) (dates : List ℤ) : List ReturnsEntry :=
  dates.filterMap (fun d => (dateReturns h d).map (fun p => ⟨t, d, p.1, p.2⟩))

def engineReturnsAux : List (String × List (ℤ × ℚ)) → List ℤ → List ReturnsEntry
  | [], _ => []
  | th :: rest, dates => returnsForHist th.1 th.2 dates ++ engineReturnsAux rest dates

/-- Lines 50-86: the `returns_df` table. -/
def engineReturns (fetch : String → Option (List (ℤ × ℚ))) (df : List CorpusRow) :
    List ReturnsEntry :=
  engineReturnsAux (allHistory fetch (engineTickers df)) (corpusDates df)

/-- Lines 137-199 minus I/O: metrics derivation followed by the left join. -/
def enginePipeline (fetch : String → Option (List (ℤ × ℚ))) (df : List CorpusRow) :
    List ERow :=
  leftJoin df (marketMetrics (engineReturns fetch df) df)

theorem mem_allHistory (fetch : String → Option (List (ℤ × ℚ))) (tickers : List String)
    (th : String × List (ℤ × ℚ)) (h : th ∈ allHistory fetch tickers) :
    fetch th.1 = some th.2 ∧ th.2 ≠ [] := by
  obtain ⟨t', _, heq⟩ := List.mem_filterMap.mp h
  cases hf : fetch t' with
  | none => rw [hf] at heq; cases heq
  | some hl =>
    rw [hf] at heq
    have heq' : (if hl.isEmpty = true then none else some (t', hl)) = some th := heq
    by_cases he : hl.isEmpty = true
    · rw [if_pos he] at heq'
      cases heq'
    · rw [if_neg he] at heq'
      cases heq'
      exact ⟨hf, by simpa [List.isEmpty_iff] using he⟩

theorem ticker_of_mem_engineReturnsAux :
    ∀ (l : List (String × List (ℤ × ℚ))) (dates : List ℤ) (e : ReturnsEntry),
      e ∈ engineReturnsAux l dates → ∃ th ∈ l, e.ticker = th.1 := by
  intro l
  induction l with
  | nil => intro dates e he; cases he
  | cons th rest ih =>
    intro dates e he
    rcases List.mem_append.mp he with h | h
    · obtain ⟨d, _, hd⟩ := List.mem_filterMap.mp h
      refine ⟨th, List.mem_cons_self _ _, ?_⟩
      cases hdr : dateReturns th.2 d with
      | none => rw [hdr] at hd; cases hd
      | some p =>
        rw [hdr] at hd
        cases hd
        rfl
    · obtain ⟨th', hth', he'⟩ := ih dates e h
      exact ⟨th', List.mem_cons_of_mem _ hth', he'⟩

theorem mem_leftJoin_cases (metrics : List MetricRow) :
    ∀ (df : List CorpusRow) (row : ERow), row ∈ leftJoin df metrics →
      (row.weekly_return = none ∧ row.growth_above_market = none) ∨
      (∃ m ∈ metrics, m.ticker = row.core.ticker ∧
        row.weekly_return = m.weekly_return ∧
        row.growth_above_market = m.growth_above_market) := by
  intro df
  induction df with
  | nil => intro row hrow; cases hrow
  | cons r rest ih =>
    intro row hrow
    rcases List.mem_append.mp hrow with h | h
    · unfold joinRow at h
      cases hfil : metrics.filter (fun m => decide (m.date = r.end_date ∧ m.ticker = r.ticker)) with
      | nil =>
        rw [hfil] at h
        simp only [List.mem_singleton] at h
        subst h
        exact Or.inl ⟨rfl, rfl⟩
      | cons m ms =>
        rw [hfil] at h
        obtain ⟨x, hx, hxr⟩ := List.mem_map.mp h
        rw [← hfil] at hx
        have hx' := List.mem_filter.mp hx
        refine Or.inr ⟨x, hx'.1, ?_, ?_, ?_⟩
        · subst hxr
          exact (of_decide_eq_true hx'.2).2
        · subst hxr
          rfl
        · subst hxr
          rfl
    · exact ih row h

theorem rowFor_of_no_ticker_entries (returns : List ReturnsEntry) (c : ℤ × String × String)
    (t : String) (hmt : t ≠ "multiple_tickers")
    (He : ∀ e ∈ returns, e.ticker ≠ t)
    (htk : (rowFor returns c).ticker = t) :
    (rowFor returns c).weekly_return = none ∧
    (rowFor returns c).growth_above_market = none := by
  by_cases hbr : (if c.2.2 = "individual" then c.2.1 else "multiple_tickers") ≠ "multiple_tickers"
  · have htk' : (rowFor returns c).ticker
        = (if c.2.2 = "individual" then c.2.1 else "multiple_tickers") := by
      simp only [rowFor]
      rw [if_pos hbr]
    have htv : (if c.2.2 = "individual" then c.2.1 else "multiple_tickers") = t := by
      rw [← htk', htk]
    have hfil : returns.filter
        (fun r => decide (r.date = c.1 ∧
          r.ticker = (if c.2.2 = "individual" then c.2.1 else "multiple_tickers"))) = [] := by
      refine List.filter_eq_nil_iff.mpr ?_
      intro e he
      simp only [decide_eq_true_eq, not_and]
      intro _
      rw [htv]
      exact He e he
    simp only [rowFor]
    rw [if_pos hbr, hfil]
    constructor
    · rfl
    · show (match (([] : List ReturnsEntry).head?.bind fun r => r.weekly_return),
          ((returns.filter (fun r => decide (r.date = c.1 ∧ r.ticker = "^GSPC"))).head?.bind
            fun r => r.weekly_return) with
        | some w, some mw => some (w - mw)
        | _, _ => none) = none
      cases ((returns.filter (fun r => decide (r.date = c.1 ∧ r.ticker = "^GSPC"))).head?.bind
          fun r => r.weekly_return) <;> rfl
  · have htk' : (rowFor returns c).ticker = "multiple_tickers" := by
      simp only [rowFor]
      rw [if_neg hbr]
      push_neg at hbr
      exact hbr
    rw [htk'] at htk
    exact absurd htk.symm hmt

/-- Claim C7 (amended): a ticker whose history fetch fails or returns an
empty series is dropped from the engine's returns table entirely, its corpus
rows get `None` for the ticker-specific metric fields (`weekly_return` and
`growth_above_market`) — the benchmark-derived fields can still be populated
from the benchmark's own history — and the run still completes and persists:
the merged schema always passes the persistence gate. -/
theorem c7_failed_ticker_tolerated (fetch : String → Option (List (ℤ × ℚ)))
    (df : List CorpusRow) (t : String)
    (hfail : fetch t = none ∨ fetch t = some [])
    (hmt : t ≠ "multiple_tickers") :
    (∀ e ∈ engineReturns fetch df, e.ticker ≠ t) ∧
    (∀ row ∈ enginePipeline fetch df, row.core.ticker = t →
      row.weekly_return = none ∧ row.growth_above_market = none) ∧
    (∀ cols : List String, (mainPersist (enrichColumns cols)).isSome = true) := by
  have hdrop : ∀ e ∈ engineReturns fetch df, e.ticker ≠ t := by
    intro e he heq
    obtain ⟨th, hth, hticker⟩ := ticker_of_mem_engineReturnsAux _ _ e he
    obtain ⟨hf, hne⟩ := mem_allHistory fetch _ th hth
    rw [hticker] at heq
    rw [heq] at hf
    rcases hfail with h | h
    · rw [h] at hf; cases hf
    · rw [h] at hf
      exact hne (Option.some.inj hf).symm
  refine ⟨hdrop, ?_, ?_⟩
  · intro row hrow hticker
    rcases mem_leftJoin_cases _ df row hrow with h | ⟨m, hm, hmt', hw, hg⟩
    · exact h
    · obtain ⟨c, _, hc⟩ := List.mem_map.mp hm
      subst hc
      have := rowFor_of_no_ticker_entries (engineReturns fetch df) c t hmt hdrop
        (by rw [hmt', hticker])
      exact ⟨hw.trans this.1, hg.trans this.2⟩
  · intro cols
    rw [mainPersist_enrichColumns cols]
    rfl

def c7Fetch : String → Option (List (ℤ × ℚ)) :=
  fun s => if s = "^GSPC" then
    some [(0, 100), (1, 102), (2, 101), (3, 103), (4, 104), (5, 105), (10, 110)]
  else none

def c7Corpus : List CorpusRow := [⟨10, "NVDA", "individual"⟩]

/-- Counterexample to C7 as stated: NVDA's fetch fails, yet NVDA's merged row
does NOT get `None` for every metric field — the benchmark-derived
`market_daily_return` and `market_weekly_return` are populated from the
benchmark's own history. -/
theorem c7_counterexample :
    c7Fetch "NVDA" = none ∧
    (enginePipeline c7Fetch c7Corpus).map
        (fun r => (r.core.ticker, r.market_daily_return.isSome, r.market_weekly_return.isSome))
      = [("NVDA", true, true)] := by
  exact ⟨rfl, by decide⟩

/-- Witness for C7 (amended): on the concrete failed-NVDA run, every merged
row has null `weekly_return` and `growth_above_market`, and a concrete merged
schema passes the persistence gate. -/
theorem c7_failed_ticker_tolerated_witness :
    ((enginePipeline c7Fetch c7Corpus).all
      (fun r => decide (r.weekly_return = none ∧ r.growth_above_market = none))) = true ∧
    (mainPersist (enrichColumns ["end_date", "ticker", "type"])).isSome = true := by
  have h := c7_failed_ticker_tolerated c7Fetch c7Corpus "NVDA" (Or.inl rfl) (by decide)
  refine ⟨?_, h.2.2 _⟩
  refine List.all_eq_true.mpr ?_
  intro r hr
  have hticker : r.core.ticker = "NVDA" := by
    have hall : (enginePipeline c7Fetch c7Corpus).all
        (fun r => decide (r.core.ticker = "NVDA")) = true := by decide
    simpa using List.all_eq_true.mp hall r hr
  simpa using h.2.1 r hr hticker
